import Mathlib

/-!
Verification of the safeclean scanner, rule registry and grouped selector.

The Rust sources are shallowly embedded: paths become lists of components,
the filesystem becomes an inductive tree threaded explicitly through every
function that the Rust code lets touch the real filesystem, and the
interactive selector becomes a state machine driven by a list of keys.
-/

/-! ## Paths

A filesystem path is modelled as its list of components, rooted at the
filesystem root (the empty list).  `parentPath` models `Path::parent`
(`None` for the root), `fileName` models `Path::file_name` (`None` for the
root), and `List.isPrefixOf` models `Path::starts_with` (component-wise,
true on equality). -/

abbrev FsPath := List String

def parentPath (p : FsPath) : Option FsPath :=
  if p.isEmpty then none else some p.dropLast

def fileName (p : FsPath) : Option String :=
  p.getLast?

/-! ## Filesystem trees

`FSNode.file s` is a regular file of `s` bytes; `FSNode.dir r es` is a
directory with child entries `es` whose listing succeeds iff `r = true`
(an unreadable directory models a permission error: `read_dir` fails and
traversal cannot descend, which the scan tolerates by skipping).  `wf`
states the shape every real directory tree has: sibling names are
distinct. -/

inductive FSNode where
  | file (size : Nat)
  | dir (readable : Bool) (entries : List (String × FSNode))
deriving Repr

mutual
/-- Model of `dir_size` in scanner.rs: total byte length of every regular
file reachable in the subtree (files under an unreadable directory are
invisible to the walk, hence uncounted; the argument node itself counts
when it is a file, as `WalkDir::new` on a file yields the file). -/
def FSNode.size : FSNode → Nat
  | .file s => s
  | .dir r es => if r then sizeEntries es else 0

def sizeEntries : List (String × FSNode) → Nat
  | [] => 0
  | e :: rest => e.2.size + sizeEntries rest
end

def findEntry : List (String × FSNode) → String → Option FSNode
  | [], _ => none
  | e :: rest, n => if e.1 = n then some e.2 else findEntry rest n

/-- Resolve a path from a node.  Children are reachable only through
readable directories, so any lookup that has to list an unreadable
directory fails, the model of an I/O error. -/
def FSNode.lookup : FSNode → FsPath → Option FSNode
  | t, [] => some t
  | .dir true es, n :: rest =>
      match findEntry es n with
      | some t => t.lookup rest
      | none => none
  | _, _ :: _ => none

/-- Model of `std::fs::read_dir`: the child names of a readable directory,
failure otherwise. -/
def readDir (fs : FSNode) (p : FsPath) : Option (List String) :=
  match fs.lookup p with
  | some (.dir true es) => some (es.map (fun e => e.1))
  | _ => none

/-- Model of `Path::exists`. -/
def pathExists (fs : FSNode) (p : FsPath) : Bool :=
  (fs.lookup p).isSome

mutual
/-- Model of the `WalkDir` traversal restricted to directories (scan
filters `entry.file_type().is_dir()`): a pre-order listing of every
reachable directory, each paired with its subtree.  An unreadable
directory is itself visited (its parent listed it) but not descended
into. -/
def walkDirs (p : FsPath) : FSNode → List (FsPath × FSNode)
  | .file _ => []
  | .dir r es => (p, .dir r es) :: (if r then walkEntries p es else [])

def walkEntries (p : FsPath) : List (String × FSNode) → List (FsPath × FSNode)
  | [] => []
  | e :: rest => walkDirs (p ++ [e.1]) e.2 ++ walkEntries p rest
end

def walk (fs : FSNode) (root : FsPath) : List (FsPath × FSNode) :=
  match fs.lookup root with
  | some t => walkDirs root t
  | none => []

def namesNodup : List (String × FSNode) → Bool
  | [] => true
  | e :: rest => !(rest.any (fun f => f.1 == e.1)) && namesNodup rest

mutual
/-- Well-formedness of a filesystem tree: no directory has two children
with the same name (true of every real filesystem). -/
def FSNode.wf : FSNode → Bool
  | .file _ => true
  | .dir _ es => namesNodup es && entriesWf es

def entriesWf : List (String × FSNode) → Bool
  | [] => true
  | e :: rest => e.2.wf && entriesWf rest
end

/-! ## Project types and the rule registry (projects.rs) -/

inductive ProjectType where
  | Rust | Node | Python | JavaMaven | Gradle | DotNet | NextJs | NuxtJs
deriving DecidableEq, Repr

def ProjectType.all : List ProjectType :=
  [.Rust, .Node, .Python, .JavaMaven, .Gradle, .DotNet, .NextJs, .NuxtJs]

/-- Model of Rust `str::starts_with`: character-wise (UTF-8 byte-wise in
Rust, equivalent for prefix testing). -/
def strStartsWith (s pat : String) : Bool :=
  pat.data.isPrefixOf s.data

def has_sibling (fs : FSNode) (path : FsPath) (filename : String) : Bool :=
  match parentPath path with
  | some par => pathExists fs (par ++ [filename])
  | none => false

def has_sibling_matching (fs : FSNode) (path : FsPath) (pat : String) : Bool :=
  match parentPath path with
  | none => false
  | some par =>
      match readDir fs par with
      | none => false
      | some names => names.any (fun name => strStartsWith name pat)

def always_valid (_ : FSNode) (_ : FsPath) : Bool :=
  true

def validate_rust (fs : FSNode) (path : FsPath) : Bool :=
  has_sibling fs path "Cargo.toml"

def validate_node (fs : FSNode) (path : FsPath) : Bool :=
  has_sibling fs path "package.json"

def validate_maven (fs : FSNode) (path : FsPath) : Bool :=
  has_sibling fs path "pom.xml"

def validate_gradle (fs : FSNode) (path : FsPath) : Bool :=
  has_sibling fs path "build.gradle" || has_sibling fs path "build.gradle.kts"

def validate_dotnet (fs : FSNode) (path : FsPath) : Bool :=
  has_sibling_matching fs path ".csproj"
    || has_sibling_matching fs path ".fsproj"
    || has_sibling_matching fs path ".sln"

def validate_nextjs (fs : FSNode) (path : FsPath) : Bool :=
  has_sibling_matching fs path "next.config"

def validate_nuxtjs (fs : FSNode) (path : FsPath) : Bool :=
  has_sibling_matching fs path "nuxt.config"

structure CleanableDir where
  dir_name : String
  project_type : ProjectType
  validator : FSNode → FsPath → Bool

def get_cleanable_dirs : List CleanableDir :=
  [ { dir_name := "target", project_type := .Rust, validator := validate_rust },
    { dir_name := "node_modules", project_type := .Node, validator := validate_node },
    { dir_name := ".venv", project_type := .Python, validator := always_valid },
    { dir_name := "venv", project_type := .Python, validator := always_valid },
    { dir_name := "__pycache__", project_type := .Python, validator := always_valid },
    { dir_name := ".pytest_cache", project_type := .Python, validator := always_valid },
    { dir_name := ".mypy_cache", project_type := .Python, validator := always_valid },
    { dir_name := ".ruff_cache", project_type := .Python, validator := always_valid },
    { dir_name := ".tox", project_type := .Python, validator := always_valid },
    { dir_name := "target", project_type := .JavaMaven, validator := validate_maven },
    { dir_name := "build", project_type := .Gradle, validator := validate_gradle },
    { dir_name := ".gradle", project_type := .Gradle, validator := validate_gradle },
    { dir_name := "bin", project_type := .DotNet, validator := validate_dotnet },
    { dir_name := "obj", project_type := .DotNet, validator := validate_dotnet },
    { dir_name := ".next", project_type := .NextJs, validator := validate_nextjs },
    { dir_name := ".nuxt", project_type := .NuxtJs, validator := validate_nuxtjs } ]

/-! ## Scanner (scanner.rs) -/

structure FoundDir where
  path : FsPath
  project_type : ProjectType
  size_bytes : Nat
deriving DecidableEq, Repr

/-- The walk loop of `scan`: the enabled-set is modelled as a list used
only through membership (the Rust `HashSet`).  For each visited directory
not under a skip entry, the first registry rule whose type is enabled,
whose basename matches and whose validator passes produces a `FoundDir`
and adds the path to `skips`. -/
def scanGo (fs : FSNode) (enabled : List ProjectType) :
    List (FsPath × FSNode) → List FsPath → List FoundDir
  | [], _ => []
  | (p, node) :: rest, skips =>
      if skips.any (fun pre => pre.isPrefixOf p) then
        scanGo fs enabled rest skips
      else
        match fileName p with
        | none => scanGo fs enabled rest skips
        | some dir_name =>
            match get_cleanable_dirs.find? (fun c =>
                decide (c.project_type ∈ enabled) && decide (dir_name = c.dir_name)
                  && c.validator fs p) with
            | some c =>
                { path := p, project_type := c.project_type, size_bytes := node.size }
                  :: scanGo fs enabled rest (p :: skips)
            | none => scanGo fs enabled rest skips

/-- Descending-size order used by the final `sort_by` of `scan`. -/
def sizeGe (a b : FoundDir) : Prop :=
  b.size_bytes ≤ a.size_bytes

instance : DecidableRel sizeGe := fun _ _ => Nat.decLe _ _

instance : IsTotal FoundDir sizeGe :=
  ⟨fun a b => Nat.le_total b.size_bytes a.size_bytes⟩

instance : IsTrans FoundDir sizeGe :=
  ⟨fun _ _ _ hab hbc => Nat.le_trans hbc hab⟩

/-- Model of `scan`: walk every directory under `root`, match against the
registry, then sort by size descending.  Rust's `slice::sort_by` is a
stable sort, and on a total preorder every stable sort has the same
output, so the stable `List.insertionSort` models it exactly. -/
def scan (fs : FSNode) (root : FsPath) (enabled : List ProjectType) : List FoundDir :=
  List.insertionSort sizeGe (scanGo fs enabled (walk fs root) [])

/-! ## CLI category flags (main.rs) -/

structure Cli where
  rust : Bool
  node : Bool
  python : Bool
  java : Bool
  gradle : Bool
  dotnet : Bool
  next : Bool
  nuxt : Bool
deriving DecidableEq, Repr

/-- Model of `get_enabled_types`: the `HashSet` result is modelled as the
list of enabled types (consumed only through membership). -/
def get_enabled_types (cli : Cli) : List ProjectType :=
  let any_specified := cli.rust || cli.node || cli.python || cli.java
    || cli.gradle || cli.dotnet || cli.next || cli.nuxt
  if any_specified then
    (if cli.rust then [ProjectType.Rust] else [])
      ++ (if cli.node then [ProjectType.Node] else [])
      ++ (if cli.python then [ProjectType.Python] else [])
      ++ (if cli.java then [ProjectType.JavaMaven] else [])
      ++ (if cli.gradle then [ProjectType.Gradle] else [])
      ++ (if cli.dotnet then [ProjectType.DotNet] else [])
      ++ (if cli.next then [ProjectType.NextJs] else [])
      ++ (if cli.nuxt then [ProjectType.NuxtJs] else [])
  else
    ProjectType.all

/-! ## Grouped selector (selector.rs)

The terminal I/O of `GroupedSelector::run` is replaced by a list of
keys: the synchronous read-render loop consumes one key per iteration and
mutates only the selector state, so the session is a fold over the key
list that stops at the first confirm/cancel key.  The render path and the
display-only `max_path_len` field are not modelled: they read the state
but never change it. -/

namespace Selector

structure GroupedItem where
  dir : FoundDir
  selected : Bool
deriving DecidableEq, Repr

structure Group where
  project_type : ProjectType
  items : List GroupedItem
  collapsed : Bool
deriving DecidableEq, Repr

def Group.total_size (g : Group) : Nat :=
  (g.items.map (fun i => i.dir.size_bytes)).sum

def Group.all_selected (g : Group) : Bool :=
  g.items.all (fun i => i.selected)

def Group.none_selected (g : Group) : Bool :=
  g.items.all (fun i => !i.selected)

def Group.toggle_all (g : Group) : Group :=
  let new_state := !g.all_selected
  { g with items := g.items.map (fun i => { i with selected := new_state }) }

structure GroupedSelector where
  groups : List Group
  cursor : Nat
deriving DecidableEq, Repr

inductive CursorPosition where
  | groupHeader (gi : Nat)
  | item (gi ii : Nat)
deriving DecidableEq, Repr

/-- Model of `GroupedSelector::new`.  The Rust code partitions through a
`HashMap` whose per-key vectors keep insertion order and then drains it
in the fixed `ProjectType::all()` order, so the groups are exactly the
in-order filters of the input by type, omitting empty ones. -/
def GroupedSelector.new (found : List FoundDir) : GroupedSelector :=
  { groups := ProjectType.all.filterMap (fun pt =>
      if (found.filter (fun d => decide (d.project_type = pt))).isEmpty then none
      else some { project_type := pt,
                  items := (found.filter (fun d => decide (d.project_type = pt))).map
                    (fun dir => { dir := dir, selected := true }),
                  collapsed := false }),
    cursor := 0 }

def groupLines (g : Group) : Nat :=
  if g.collapsed then 1 else 1 + g.items.length

def GroupedSelector.total_lines (s : GroupedSelector) : Nat :=
  (s.groups.map groupLines).sum

/-- Inner loop of `cursor_position` over the items of an expanded group:
starting at visible line `line`, item index 0, scan `n` items for the
cursor line. -/
def itemScan (cursor line : Nat) : Nat → Option Nat
  | 0 => none
  | n + 1 =>
      if line = cursor then some 0
      else (itemScan cursor (line + 1) n).map (fun ii => ii + 1)

/-- Outer loop of `cursor_position`: `gi` is the index of the first group
of the remaining list, `line` the visible line it starts at.  Falls back
to `groupHeader 0` after the loop, exactly as the Rust code does. -/
def cpGo (cursor : Nat) : Nat → Nat → List Group → CursorPosition
  | _, _, [] => .groupHeader 0
  | gi, line, g :: rest =>
      if line = cursor then .groupHeader gi
      else if g.collapsed then cpGo cursor (gi + 1) (line + 1) rest
      else
        match itemScan cursor (line + 1) g.items.length with
        | some ii => .item gi ii
        | none => cpGo cursor (gi + 1) (line + 1 + g.items.length) rest

def GroupedSelector.cursor_position (s : GroupedSelector) : CursorPosition :=
  cpGo s.cursor 0 0 s.groups

def GroupedSelector.move_up (s : GroupedSelector) : GroupedSelector :=
  if s.cursor > 0 then { s with cursor := s.cursor - 1 } else s

def GroupedSelector.move_down (s : GroupedSelector) : GroupedSelector :=
  if s.cursor + 1 < s.total_lines then { s with cursor := s.cursor + 1 } else s

/-- In-place update `l[i] = f l[i]` of the Rust index assignments
(out-of-range indices leave the list unchanged; the code never produces
them). -/
def modifyAt (f : α → α) : List α → Nat → List α
  | [], _ => []
  | x :: rest, 0 => f x :: rest
  | x :: rest, n + 1 => x :: modifyAt f rest n

def GroupedItem.toggle (i : GroupedItem) : GroupedItem :=
  { i with selected := !i.selected }

def GroupedSelector.toggle_current (s : GroupedSelector) : GroupedSelector :=
  match s.cursor_position with
  | .groupHeader gi => { s with groups := modifyAt Group.toggle_all s.groups gi }
  | .item gi ii =>
      { s with groups := (modifyAt
          (fun g => { g with items := modifyAt GroupedItem.toggle g.items ii })
          s.groups gi) }

def GroupedSelector.toggle_collapse (s : GroupedSelector) : GroupedSelector :=
  match s.cursor_position with
  | .groupHeader gi =>
      { s with groups := modifyAt (fun g => { g with collapsed := !g.collapsed }) s.groups gi }
  | .item _ _ => s

/-- The keys the `run` loop distinguishes; every other key of the
terminal library falls under `other`. -/
inductive Key where
  | arrowUp | arrowDown | char (c : Char) | tab | enter | escape | other
deriving DecidableEq, Repr

/-- True for the keys that end the session (confirm or cancel). -/
def endsSession : Key → Bool
  | .enter => true
  | .escape => true
  | .char 'q' => true
  | _ => false

/-- The state mutation of one non-terminating key of the `run` match. -/
def GroupedSelector.step (s : GroupedSelector) : Key → GroupedSelector
  | .arrowUp => s.move_up
  | .char 'k' => s.move_up
  | .arrowDown => s.move_down
  | .char 'j' => s.move_down
  | .char ' ' => s.toggle_current
  | .tab => s.toggle_collapse
  | _ => s

/-- The value returned on `Enter`: flatten all groups' items, keep the
selected ones, project the directory (the `flat_map`/`filter`/`map`
chain at the end of `run`). -/
def selectedDirs (groups : List Group) : List FoundDir :=
  (((groups.map (fun g => g.items)).flatten).filter (fun i => i.selected)).map
    (fun i => i.dir)

/-- Model of `GroupedSelector::run`: consume keys until `Enter` (confirm:
return the selected dirs), `Esc`/`q` (cancel: return the empty list), or
the key list is exhausted (`none`: the blocking loop never ended). -/
def GroupedSelector.run (s : GroupedSelector) : List Key → Option (List FoundDir)
  | [] => none
  | k :: ks =>
      match k with
      | .enter => some (selectedDirs s.groups)
      | .escape => some []
      | .char 'q' => some []
      | _ => (s.step k).run ks

def applyKeys (s : GroupedSelector) (ks : List Key) : GroupedSelector :=
  ks.foldl GroupedSelector.step s

/-- The cursor invariant of the selector (§3 of the spec). -/
def cursorInv (s : GroupedSelector) : Prop :=
  s.cursor < s.total_lines

end Selector

/-! ## Derived notions used by the claims -/

/-- `p` is a strict ancestor of `q`: a component-wise proper path
prefix. -/
def isStrictAncestor (p q : FsPath) : Bool :=
  p.isPrefixOf q && !(p == q)

/-- The sibling marker names each registry validator looks for, read off
projects.rs (the Python rules check nothing). -/
def markerOf : ProjectType → String → Bool
  | .Rust, n => n == "Cargo.toml"
  | .Node, n => n == "package.json"
  | .Python, _ => true
  | .JavaMaven, n => n == "pom.xml"
  | .Gradle, n => n == "build.gradle" || n == "build.gradle.kts"
  | .DotNet, n =>
      strStartsWith n ".csproj" || strStartsWith n ".fsproj" || strStartsWith n ".sln"
  | .NextJs, n => strStartsWith n "next.config"
  | .NuxtJs, n => strStartsWith n "nuxt.config"

/-- The names visible inside the parent of `p` (empty when the parent is
missing or unreadable). -/
def childNames (fs : FSNode) (par : FsPath) : List String :=
  (readDir fs par).getD []

/-- A sibling marker for project type `pt` exists next to `p`. -/
def markerPresent (fs : FSNode) (p : FsPath) (pt : ProjectType) : Prop :=
  ∃ par, parentPath p = some par ∧ ∃ n ∈ childNames fs par, markerOf pt n = true

/-- The scanner output regrouped in the fixed category order with the
original relative order inside each category: the order in which a
default (all-selected) confirm returns the entries. -/
def regroupByType (entries : List FoundDir) : List FoundDir :=
  (ProjectType.all.map (fun pt =>
    entries.filter (fun d => decide (d.project_type = pt)))).flatten

/-- Symmetric form of the pruning invariant: neither entry's path is a
strict ancestor of the other's. -/
def noAncPair (a b : FoundDir) : Prop :=
  isStrictAncestor a.path b.path = false ∧ isStrictAncestor b.path a.path = false

/-- A directory listing in which no later path is a strict ancestor of an
earlier one — the shape of a pre-order walk of a well-formed tree. -/
def laterNotAnc (l : List (FsPath × FSNode)) : Prop :=
  l.Pairwise (fun a b => isStrictAncestor b.1 a.1 = false)

/-- The per-group directory sequences of a selector state, the part of
the state that no key operation may change. -/
def itemDirs (groups : List Selector.Group) : List (List FoundDir) :=
  groups.map (fun g => g.items.map (fun i => i.dir))

/-! ## Concrete fixtures for witnesses and counterexamples -/

/-- The §8 scenario tree: `proj-a/target` next to a `Cargo.toml`, holding
50 bytes, and `proj-b/node_modules` next to a `package.json`, holding
200 bytes. -/
def fsScenario : FSNode := .dir true
  [ ("proj-a", .dir true
      [ ("Cargo.toml", .file 1),
        ("target", .dir true
          [("debug", .dir true [("deps", .dir true [("x.o", .file 50)])])]) ]),
    ("proj-b", .dir true
      [ ("package.json", .file 1),
        ("node_modules", .dir true
          [("lodash", .dir true [("index.js", .file 200)])]) ]) ]

/-- A tree whose only candidate is a `.venv` directory with no files at
all anywhere, hence no sibling marker of any kind. -/
def fsPyOnly : FSNode := .dir true
  [ ("proj", .dir true [(".venv", .dir true [])]) ]

/-- A .NET-looking project: the parent holds `App.csproj` (the marker
as a suffix, not a prefix) next to `bin` and `obj` directories. -/
def fsDotnet : FSNode := .dir true
  [ ("proj", .dir true
      [ ("App.csproj", .file 10),
        ("bin", .dir true [("out", .file 5)]),
        ("obj", .dir true []) ]) ]

/-- A project carrying both a `Cargo.toml` and a `pom.xml` next to one
`target` directory: both rules sharing the basename fire their
validators. -/
def fsBothMarkers : FSNode := .dir true
  [ ("proj", .dir true
      [ ("Cargo.toml", .file 1), ("pom.xml", .file 1),
        ("target", .dir true [("a.o", .file 7)]) ]) ]

/-- A matched `node_modules` containing a nested directory that would
itself match the Rust rule (marker included) were it ever evaluated. -/
def fsNested : FSNode := .dir true
  [ ("proj", .dir true
      [ ("package.json", .file 1),
        ("node_modules", .dir true
          [ ("dep", .dir true
              [ ("Cargo.toml", .file 1),
                ("target", .dir true [("y", .file 3)]) ]) ]) ]) ]

/-- Scanner entries feeding the selector fixtures: two Rust entries and a
Node entry, sizes descending. -/
def exEntries : List FoundDir :=
  [ { path := ["b", "node_modules"], project_type := .Node, size_bytes := 200 },
    { path := ["a", "target"], project_type := .Rust, size_bytes := 50 },
    { path := ["c", "target"], project_type := .Rust, size_bytes := 10 } ]

/-- A group with one selected and one unselected item. -/
def exGroupMixed : Selector.Group :=
  { project_type := .Rust,
    items := [ { dir := { path := ["a", "target"], project_type := .Rust, size_bytes := 50 },
                 selected := true },
               { dir := { path := ["c", "target"], project_type := .Rust, size_bytes := 10 },
                 selected := false } ],
    collapsed := false }

/-- A group with every item selected (the construction-time state). -/
def exGroupAll : Selector.Group :=
  { project_type := .Node,
    items := [ { dir := { path := ["b", "node_modules"], project_type := .Node, size_bytes := 200 },
                 selected := true } ],
    collapsed := false }

/-- The CLI with no category flag set. -/
def cliNoFlags : Cli :=
  { rust := false, node := false, python := false, java := false,
    gradle := false, dotnet := false, next := false, nuxt := false }

/-! ## C5: output sorted by size descending -/

/-- C5: for every root and enabled-category set, the sequence returned by
`scan` is sorted by `size_bytes` in descending order: for all indices
`i < j`, the entry at `i` has at least the size of the entry at `j`. -/
theorem scan_sorted_desc (fs : FSNode) (root : FsPath) (enabled : List ProjectType)
    (i j : Nat) (hij : i < j) (hj : j < (scan fs root enabled).length) :
    ((scan fs root enabled).get ⟨j, hj⟩).size_bytes
      ≤ ((scan fs root enabled).get ⟨i, Nat.lt_trans hij hj⟩).size_bytes := by
  have hp : (scan fs root enabled).Pairwise sizeGe :=
    List.sorted_insertionSort sizeGe _
  have h := List.pairwise_iff_getElem.mp hp i j (Nat.lt_trans hij hj) hj hij
  simpa [sizeGe, List.get_eq_getElem] using h

/-- Witness for C5 on the §8 scenario tree: the second entry (rust, 50 B)
is no larger than the first (node, 200 B). -/
theorem scan_sorted_desc_witness :
    ((scan fsScenario [] ProjectType.all).get ⟨1, (by decide)⟩).size_bytes
      ≤ ((scan fsScenario [] ProjectType.all).get ⟨0, (by decide)⟩).size_bytes :=
  scan_sorted_desc fsScenario [] ProjectType.all 0 1 (by decide) (by decide)

/-! ## C2: empty enabled set -/

/-- C2 counterexample: on a tree holding a `.venv` directory, `scan` with
the empty enabled set returns nothing while `scan` with every registered
category returns the `.venv` entry — the two calls do not agree, because
the `enabled_types.contains` test can never succeed on an empty set. -/
theorem scan_empty_enabled_counterexample :
    scan fsPyOnly [] ([] : List ProjectType) = [] ∧
    scan fsPyOnly [] ProjectType.all
      = [{ path := ["proj", ".venv"], project_type := .Python, size_bytes := 0 }] ∧
    scan fsPyOnly [] ([] : List ProjectType) ≠ scan fsPyOnly [] ProjectType.all :=
  ⟨by decide, by decide, by decide⟩

theorem scanGo_empty_enabled (fs : FSNode) :
    ∀ (W : List (FsPath × FSNode)) (skips : List FsPath), scanGo fs [] W skips = []
  | [], _ => rfl
  | (p, node) :: rest, skips => by
      have hfind : ∀ dn, get_cleanable_dirs.find? (fun c =>
          decide (c.project_type ∈ ([] : List ProjectType)) && decide (dn = c.dir_name)
            && c.validator fs p) = none := by
        intro dn
        apply List.find?_eq_none.mpr
        intro c _
        simp
      simp only [scanGo]
      split
      · exact scanGo_empty_enabled fs rest skips
      · split
        · exact scanGo_empty_enabled fs rest skips
        · rw [hfind _]
          exact scanGo_empty_enabled fs rest skips

/-- C2 amended: `scan` itself with an empty enabled set matches nothing
and returns the empty list; the empty-means-all defaulting lives in the
CLI layer: `get_enabled_types` returns every registered category when no
category flag is given, so `scan` is always invoked with the full set in
that case. -/
theorem scan_empty_enabled_amended :
    (∀ (fs : FSNode) (root : FsPath), scan fs root [] = []) ∧
    get_enabled_types cliNoFlags = ProjectType.all := by
  constructor
  · intro fs root
    unfold scan
    rw [scanGo_empty_enabled]
    rfl
  · rfl

/-! ## C4: shared basenames in the registry -/

/-- C4 counterexample: the registry's basenames are not pairwise
distinct: entries 0 (Rust) and 9 (Java/Maven) both use the basename
`target`, and they are different rules. -/
theorem registry_duplicate_basename_counterexample :
    ¬ (get_cleanable_dirs.map (fun c => c.dir_name)).Nodup ∧
    (get_cleanable_dirs.get ⟨0, (by decide)⟩).dir_name = "target" ∧
    (get_cleanable_dirs.get ⟨9, (by decide)⟩).dir_name = "target" ∧
    (get_cleanable_dirs.get ⟨0, (by decide)⟩).project_type
      ≠ (get_cleanable_dirs.get ⟨9, (by decide)⟩).project_type := by
  refine ⟨by decide, by decide, by decide, by decide⟩

/-- C4 amended: exactly one basename, `target`, is shared, by the Rust
rule and the Java/Maven rule; every other basename is unique.  For
`target` directories rule order is significant: when both the Rust and
the Maven validators pass, the Rust rule (listed first) fires. -/
theorem registry_target_duplicate_amended :
    (get_cleanable_dirs.map (fun c => c.dir_name)).count "target" = 2 ∧
    ((get_cleanable_dirs.map (fun c => c.dir_name)).filter (fun n => n != "target")).Nodup ∧
    scan fsBothMarkers [] ProjectType.all
      = [{ path := ["proj", "target"], project_type := .Rust, size_bytes := 7 }] :=
  ⟨by decide, by decide, by decide⟩

/-! ## C10: the .NET validator is a prefix test -/

theorem has_sibling_matching_eq_true (fs : FSNode) (p : FsPath) (pat : String) :
    has_sibling_matching fs p pat = true ↔
      ∃ par names, parentPath p = some par ∧ readDir fs par = some names ∧
        ∃ n ∈ names, strStartsWith n pat = true := by
  unfold has_sibling_matching
  cases hp : parentPath p with
  | none => simp
  | some par =>
      cases hr : readDir fs par with
      | none => simp [hr]
      | some names => simp [hr, List.any_eq_true]

/-- C10: the .NET validator accepts a directory iff its parent exists, is
listable, and some immediate child's name begins with the literal string
`.csproj`, `.fsproj` or `.sln`; in particular a parent holding only a
conventionally named `App.csproj` (extension as a suffix) never
validates, so its `bin`/`obj` directories are never reported. -/
theorem validate_dotnet_prefix_semantics :
    (∀ (fs : FSNode) (p : FsPath),
      validate_dotnet fs p = true ↔
        ∃ par names, parentPath p = some par ∧ readDir fs par = some names ∧
          ∃ n ∈ names,
            (strStartsWith n ".csproj" || strStartsWith n ".fsproj"
              || strStartsWith n ".sln") = true) ∧
    validate_dotnet fsDotnet ["proj", "bin"] = false ∧
    scan fsDotnet [] ProjectType.all = [] := by
  refine ⟨?_, by decide, by decide⟩
  intro fs p
  unfold validate_dotnet
  simp only [Bool.or_eq_true, has_sibling_matching_eq_true]
  constructor
  · rintro ((⟨par, names, hp, hr, n, hn, h⟩ | ⟨par, names, hp, hr, n, hn, h⟩) |
        ⟨par, names, hp, hr, n, hn, h⟩) <;>
      exact ⟨par, names, hp, hr, n, hn, by simp [h]⟩
  · rintro ⟨par, names, hp, hr, n, hn, h⟩
    rcases (by simpa using h : (strStartsWith n ".csproj" = true
        ∨ strStartsWith n ".fsproj" = true) ∨ strStartsWith n ".sln" = true) with (h | h) | h
    · exact Or.inl (Or.inl ⟨par, names, hp, hr, n, hn, h⟩)
    · exact Or.inl (Or.inr ⟨par, names, hp, hr, n, hn, h⟩)
    · exact Or.inr ⟨par, names, hp, hr, n, hn, h⟩

/-! ## C6: validators and unreadable parents -/

theorem lookup_append (q p : FsPath) :
    ∀ t : FSNode, t.lookup (p ++ q) = (t.lookup p).bind (fun u => u.lookup q) := by
  induction p with
  | nil =>
      intro t
      cases t with
      | file s => rfl
      | dir r es => cases r <;> rfl
  | cons n rest ih =>
      intro t
      match t with
      | .file s => rfl
      | .dir false es => rfl
      | .dir true es =>
          simp only [FSNode.lookup, List.cons_append]
          cases h : findEntry es n with
          | none => simp [h]
          | some u => simp [h, ih u]

theorem readDir_none_child (fs : FSNode) (par : FsPath) (hr : readDir fs par = none)
    (f : String) : fs.lookup (par ++ [f]) = none := by
  rw [lookup_append]
  unfold readDir at hr
  cases hl : fs.lookup par with
  | none => rfl
  | some u =>
      rw [hl] at hr
      match u with
      | .file s => rfl
      | .dir false es => rfl
      | .dir true es => simp at hr

theorem has_sibling_fail_closed (fs : FSNode) (p : FsPath) (f : String)
    (h : parentPath p = none ∨ ∃ par, parentPath p = some par ∧ readDir fs par = none) :
    has_sibling fs p f = false := by
  unfold has_sibling
  rcases h with hn | ⟨par, hp, hr⟩
  · rw [hn]
  · rw [hp]
    show (fs.lookup (par ++ [f])).isSome = false
    rw [readDir_none_child fs par hr f]
    rfl

theorem has_sibling_matching_fail_closed (fs : FSNode) (p : FsPath) (pat : String)
    (h : parentPath p = none ∨ ∃ par, parentPath p = some par ∧ readDir fs par = none) :
    has_sibling_matching fs p pat = false := by
  unfold has_sibling_matching
  rcases h with hn | ⟨par, hp, hr⟩
  · rw [hn]
  · rw [hp]
    show (match readDir fs par with
        | none => false
        | some names => names.any fun name => strStartsWith name pat) = false
    rw [hr]

/-- C6 counterexample: `always_valid`, the validator of the Python rules
(here the `.venv` rule, registry index 2), returns `true` — not `false` —
on the root path, which has no parent at all. -/
theorem always_valid_counterexample :
    parentPath ([] : FsPath) = none ∧
    (get_cleanable_dirs.get ⟨2, (by decide)⟩).validator (FSNode.dir true []) [] = true :=
  ⟨by decide, by decide⟩

/-- C6 amended: when the candidate has no parent or its parent cannot be
read, every sibling-checking validator in the registry returns `false`
(fails closed, never erroring out of the scan); the Python rules'
validator `always_valid` never consults the filesystem and returns
`true` unconditionally. -/
theorem validators_fail_closed (c : CleanableDir) (hc : c ∈ get_cleanable_dirs)
    (fs : FSNode) (p : FsPath)
    (h : parentPath p = none ∨ ∃ par, parentPath p = some par ∧ readDir fs par = none) :
    c.validator fs p = decide (c.project_type = .Python) := by
  have hsib : ∀ f, has_sibling fs p f = false :=
    fun f => has_sibling_fail_closed fs p f h
  have hsm : ∀ pat, has_sibling_matching fs p pat = false :=
    fun pat => has_sibling_matching_fail_closed fs p pat h
  fin_cases hc <;>
    simp [validate_rust, validate_node, validate_maven, validate_gradle,
      validate_dotnet, validate_nextjs, validate_nuxtjs, always_valid, hsib, hsm]

/-- Witness for C6: the Rust rule's validator at the parentless root path
evaluates to `false`, matching `decide (Rust = Python)`. -/
theorem validators_fail_closed_witness :
    (get_cleanable_dirs.get ⟨0, (by decide)⟩).validator (FSNode.dir true []) []
      = decide ((get_cleanable_dirs.get ⟨0, (by decide)⟩).project_type = .Python) :=
  validators_fail_closed _ (List.get_mem get_cleanable_dirs 0 (by decide))
    (FSNode.dir true []) [] (Or.inl rfl)

/-! ## C8: group toggle-all -/

theorem sel_all_map_const (items : List Selector.GroupedItem) (b : Bool) :
    ((items.map (fun i => { i with selected := b })).all fun i => i.selected)
      = items.all (fun _ => b) := by
  induction items with
  | nil => rfl
  | cons a tl ih => simp [ih]

theorem sel_all_map_const_not (items : List Selector.GroupedItem) (b : Bool) :
    ((items.map (fun i => { i with selected := b })).all fun i => !i.selected)
      = items.all (fun _ => !b) := by
  induction items with
  | nil => rfl
  | cons a tl ih => simp [ih]

theorem toggle_all_items_eq (g : Selector.Group) :
    g.toggle_all.items = g.items.map (fun i => { i with selected := !g.all_selected }) :=
  rfl

/-- C8: `toggle_all` sets every item's selected flag to the negation of
the group's current all-selected state: if any item is unselected it
selects everything, only an all-selected group gets fully deselected, and
applying it twice to an all-selected group first deselects and then
reselects everything. -/
theorem toggle_all_spec (g : Selector.Group) :
    (∀ i ∈ g.toggle_all.items, i.selected = !g.all_selected) ∧
    ((∃ i ∈ g.items, i.selected = false) → g.toggle_all.all_selected = true) ∧
    (g.all_selected = true → g.toggle_all.none_selected = true) ∧
    (g.all_selected = true → g.toggle_all.toggle_all.all_selected = true) := by
  refine ⟨?_, ?_, ?_, ?_⟩
  · intro i hi
    rw [toggle_all_items_eq] at hi
    rcases List.mem_map.mp hi with ⟨j, _, rfl⟩
    rfl
  · rintro ⟨i, hi, hsel⟩
    have hall : g.all_selected = false := by
      cases hq : g.all_selected with
      | false => rfl
      | true =>
          have := (List.all_eq_true.mp hq) i hi
          simp only [hsel] at this
          cases this
    show (g.toggle_all.items.all fun i => i.selected) = true
    rw [toggle_all_items_eq, sel_all_map_const, hall]
    simp
  · intro h
    show (g.toggle_all.items.all fun i => !i.selected) = true
    rw [toggle_all_items_eq, sel_all_map_const_not, h]
    simp
  · intro h
    have h1 : g.toggle_all.all_selected = (g.items.all fun _ => (false : Bool)) := by
      show (g.toggle_all.items.all fun i => i.selected) = _
      rw [toggle_all_items_eq, sel_all_map_const, h]
      rfl
    show (g.toggle_all.toggle_all.items.all fun i => i.selected) = true
    rw [toggle_all_items_eq g.toggle_all, sel_all_map_const, h1]
    cases hi : g.items with
    | nil =>
        rw [toggle_all_items_eq, hi]
        rfl
    | cons a tl =>
        rw [toggle_all_items_eq, hi]
        simp

/-- Witness for C8 on concrete groups: a mixed group becomes all-selected,
and an all-selected group is deselected then restored by two
toggle-alls. -/
theorem toggle_all_spec_witness :
    ((∃ i ∈ exGroupMixed.items, i.selected = false) ∧
      exGroupMixed.toggle_all.all_selected = true) ∧
    (exGroupAll.all_selected = true ∧
      exGroupAll.toggle_all.none_selected = true ∧
      exGroupAll.toggle_all.toggle_all.all_selected = true) :=
  ⟨⟨by decide, (toggle_all_spec exGroupMixed).2.1 (by decide)⟩,
    by decide, (toggle_all_spec exGroupAll).2.2.1 (by decide),
    (toggle_all_spec exGroupAll).2.2.2 (by decide)⟩

/-! ## C3: validators and sibling markers -/

theorem bool_or_elim {a b : Bool} (h : (a || b) = true) : a = true ∨ b = true := by
  simpa using h

theorem findEntry_some_mem (n : String) (t : FSNode) :
    ∀ es : List (String × FSNode), findEntry es n = some t → ∃ e ∈ es, e.1 = n ∧ e.2 = t := by
  intro es
  induction es with
  | nil => intro h; cases h
  | cons e rest ih =>
      intro h
      unfold findEntry at h
      split at h
      · exact ⟨e, List.mem_cons_self e rest, by assumption, Option.some.inj h⟩
      · rcases ih h with ⟨f, hf, h1, h2⟩
        exact ⟨f, List.mem_cons_of_mem e hf, h1, h2⟩

theorem lookup_snoc (fs : FSNode) (par : FsPath) (f : String) (u : FSNode)
    (h : fs.lookup (par ++ [f]) = some u) :
    ∃ es, fs.lookup par = some (.dir true es) ∧ f ∈ es.map (fun e => e.1) := by
  rw [lookup_append] at h
  cases hl : fs.lookup par with
  | none => rw [hl] at h; cases h
  | some v =>
      rw [hl] at h
      match v, h with
      | .dir true es, h =>
          have h' : (match findEntry es f with
              | some t => t.lookup ([] : FsPath)
              | none => none) = some u := h
          cases hf : findEntry es f with
          | none => rw [hf] at h'; cases h'
          | some t =>
              rcases findEntry_some_mem f t es hf with ⟨e, he, h1, _⟩
              exact ⟨es, rfl, List.mem_map.mpr ⟨e, he, h1⟩⟩

theorem has_sibling_marker (fs : FSNode) (p : FsPath) (f : String)
    (h : has_sibling fs p f = true) :
    ∃ par, parentPath p = some par ∧ f ∈ childNames fs par := by
  unfold has_sibling at h
  cases hp : parentPath p with
  | none => rw [hp] at h; cases h
  | some par =>
      rw [hp] at h
      have h' : (fs.lookup (par ++ [f])).isSome = true := h
      cases hl : fs.lookup (par ++ [f]) with
      | none => rw [hl] at h'; cases h'
      | some u =>
          rcases lookup_snoc fs par f u hl with ⟨es, hpar, hmem⟩
          refine ⟨par, rfl, ?_⟩
          unfold childNames readDir
          rw [hpar]
          exact hmem

theorem hsm_marker (fs : FSNode) (p : FsPath) (pat : String)
    (h : has_sibling_matching fs p pat = true) :
    ∃ par, parentPath p = some par ∧
      ∃ n ∈ childNames fs par, strStartsWith n pat = true := by
  rcases (has_sibling_matching_eq_true fs p pat).mp h with ⟨par, names, hp, hr, n, hn, hs⟩
  refine ⟨par, hp, n, ?_, hs⟩
  unfold childNames
  rw [hr]
  exact hn

theorem registry_validators_marker :
    ∀ c ∈ get_cleanable_dirs, c.project_type ≠ .Python → ∀ (fs : FSNode) (p : FsPath),
      c.validator fs p = true → markerPresent fs p c.project_type := by
  intro c hc hpy fs p hv
  fin_cases hc
  · rcases has_sibling_marker fs p "Cargo.toml" hv with ⟨par, hp, hm⟩
    exact ⟨par, hp, "Cargo.toml", hm, by decide⟩
  · rcases has_sibling_marker fs p "package.json" hv with ⟨par, hp, hm⟩
    exact ⟨par, hp, "package.json", hm, by decide⟩
  · exact absurd rfl hpy
  · exact absurd rfl hpy
  · exact absurd rfl hpy
  · exact absurd rfl hpy
  · exact absurd rfl hpy
  · exact absurd rfl hpy
  · exact absurd rfl hpy
  · rcases has_sibling_marker fs p "pom.xml" hv with ⟨par, hp, hm⟩
    exact ⟨par, hp, "pom.xml", hm, by decide⟩
  · rcases bool_or_elim hv with h | h
    · rcases has_sibling_marker fs p "build.gradle" h with ⟨par, hp, hm⟩
      exact ⟨par, hp, "build.gradle", hm, by decide⟩
    · rcases has_sibling_marker fs p "build.gradle.kts" h with ⟨par, hp, hm⟩
      exact ⟨par, hp, "build.gradle.kts", hm, by decide⟩
  · rcases bool_or_elim hv with h | h
    · rcases has_sibling_marker fs p "build.gradle" h with ⟨par, hp, hm⟩
      exact ⟨par, hp, "build.gradle", hm, by decide⟩
    · rcases has_sibling_marker fs p "build.gradle.kts" h with ⟨par, hp, hm⟩
      exact ⟨par, hp, "build.gradle.kts", hm, by decide⟩
  · rcases bool_or_elim hv with h | h
    · rcases bool_or_elim h with h1 | h1
      · rcases hsm_marker fs p ".csproj" h1 with ⟨par, hp, n, hn, hs⟩
        exact ⟨par, hp, n, hn, by simp [markerOf, hs]⟩
      · rcases hsm_marker fs p ".fsproj" h1 with ⟨par, hp, n, hn, hs⟩
        exact ⟨par, hp, n, hn, by simp [markerOf, hs]⟩
    · rcases hsm_marker fs p ".sln" h with ⟨par, hp, n, hn, hs⟩
      exact ⟨par, hp, n, hn, by simp [markerOf, hs]⟩
  · rcases bool_or_elim hv with h | h
    · rcases bool_or_elim h with h1 | h1
      · rcases hsm_marker fs p ".csproj" h1 with ⟨par, hp, n, hn, hs⟩
        exact ⟨par, hp, n, hn, by simp [markerOf, hs]⟩
      · rcases hsm_marker fs p ".fsproj" h1 with ⟨par, hp, n, hn, hs⟩
        exact ⟨par, hp, n, hn, by simp [markerOf, hs]⟩
    · rcases hsm_marker fs p ".sln" h with ⟨par, hp, n, hn, hs⟩
      exact ⟨par, hp, n, hn, by simp [markerOf, hs]⟩
  · rcases hsm_marker fs p "next.config" hv with ⟨par, hp, n, hn, hs⟩
    exact ⟨par, hp, n, hn, by simp [markerOf, hs]⟩
  · rcases hsm_marker fs p "nuxt.config" hv with ⟨par, hp, n, hn, hs⟩
    exact ⟨par, hp, n, hn, by simp [markerOf, hs]⟩

theorem scanGo_mem_rule (fs : FSNode) (enabled : List ProjectType) :
    ∀ (W : List (FsPath × FSNode)) (skips : List FsPath) (e : FoundDir),
      e ∈ scanGo fs enabled W skips →
      ∃ c ∈ get_cleanable_dirs, c.project_type = e.project_type ∧
        fileName e.path = some c.dir_name ∧ c.validator fs e.path = true
  | [], _, e, he => absurd he (List.not_mem_nil e)
  | (p, node) :: rest, skips, e, he => by
      simp only [scanGo] at he
      split at he
      · exact scanGo_mem_rule fs enabled rest skips e he
      · split at he
        · exact scanGo_mem_rule fs enabled rest skips e he
        · rename_i dir_name hfn
          split at he
          · rename_i c hfind
            rcases List.mem_cons.mp he with rfl | htail
            · have hcmem := List.mem_of_find?_eq_some hfind
              have hcpred := List.find?_some hfind
              simp only [Bool.and_eq_true, decide_eq_true_eq] at hcpred
              exact ⟨c, hcmem, rfl, by rw [hfn, hcpred.1.2], hcpred.2⟩
            · exact scanGo_mem_rule fs enabled rest (p :: skips) e htail
          · exact scanGo_mem_rule fs enabled rest skips e he

theorem scan_mem_rule (fs : FSNode) (root : FsPath) (enabled : List ProjectType)
    (e : FoundDir) (he : e ∈ scan fs root enabled) :
    ∃ c ∈ get_cleanable_dirs, c.project_type = e.project_type ∧
      fileName e.path = some c.dir_name ∧ c.validator fs e.path = true := by
  unfold scan at he
  have hperm := List.perm_insertionSort sizeGe (scanGo fs enabled (walk fs root) [])
  exact scanGo_mem_rule fs enabled _ [] e (hperm.mem_iff.mp he)

/-- C3 counterexample: the `.venv` directory of `fsPyOnly` has no sibling
at all — its parent's listing holds just the `.venv` directory itself, in
particular no marker file of any rule — yet it is reported by the scan,
because the Python rules' validator `always_valid` checks nothing. -/
theorem no_marker_dir_reported_counterexample :
    scan fsPyOnly [] ProjectType.all
      = [{ path := ["proj", ".venv"], project_type := .Python, size_bytes := 0 }] ∧
    childNames fsPyOnly ["proj"] = [".venv"] ∧
    (get_cleanable_dirs.get ⟨2, (by decide)⟩).validator fsPyOnly ["proj", ".venv"] = true :=
  ⟨by decide, by decide, by decide⟩

/-- C3 amended: every rule except the Python ones (whose `always_valid`
validator accepts unconditionally) returns true only when the expected
sibling marker is present in the candidate's parent; consequently every
non-Python entry of the scan output has its rule's sibling marker present
next to it. -/
theorem validators_require_marker :
    (∀ c ∈ get_cleanable_dirs, c.project_type ≠ .Python → ∀ (fs : FSNode) (p : FsPath),
        c.validator fs p = true → markerPresent fs p c.project_type) ∧
    (∀ (fs : FSNode) (root : FsPath) (enabled : List ProjectType) (e : FoundDir),
        e ∈ scan fs root enabled → e.project_type ≠ .Python →
        markerPresent fs e.path e.project_type) := by
  refine ⟨registry_validators_marker, ?_⟩
  intro fs root enabled e he hpy
  rcases scan_mem_rule fs root enabled e he with ⟨c, hcm, hpt, _, hval⟩
  have h1 := registry_validators_marker c hcm (by rw [hpt]; exact hpy) fs e.path hval
  rwa [hpt] at h1

/-- Witness for C3: the Rust `target` rule validates in the §8 scenario
tree and its `Cargo.toml` marker is found; the Node entry reported by the
scan likewise has its marker. -/
theorem validators_require_marker_witness :
    ((get_cleanable_dirs.get ⟨0, (by decide)⟩).validator fsScenario ["proj-a", "target"] = true
      ∧ markerPresent fsScenario ["proj-a", "target"]
          (get_cleanable_dirs.get ⟨0, (by decide)⟩).project_type)
    ∧ markerPresent fsScenario ["proj-b", "node_modules"] .Node :=
  ⟨⟨by decide,
      validators_require_marker.1 _ (List.get_mem get_cleanable_dirs 0 (by decide))
        (by decide) fsScenario ["proj-a", "target"] (by decide)⟩,
    validators_require_marker.2 fsScenario [] ProjectType.all
      { path := ["proj-b", "node_modules"], project_type := .Node, size_bytes := 200 }
      (by decide) (by decide)⟩

/-! ## C1: the pruning invariant -/

theorem isPrefixOf_eq_append : ∀ (a b : FsPath), a.isPrefixOf b = true ↔ ∃ t, a ++ t = b := by
  intro a
  induction a with
  | nil => intro b; simp [List.isPrefixOf]
  | cons x xs ih =>
      intro b
      cases b with
      | nil => simp [List.isPrefixOf]
      | cons y ys =>
          simp only [List.isPrefixOf, Bool.and_eq_true, beq_iff_eq, ih ys]
          constructor
          · rintro ⟨rfl, t, rfl⟩
            exact ⟨t, rfl⟩
          · rintro ⟨t, ht⟩
            injection ht with h1 h2
            exact ⟨h1, t, h2⟩

theorem long_not_anc (p : FsPath) (x : String) (s : FsPath) :
    isStrictAncestor (p ++ x :: s) p = false := by
  unfold isStrictAncestor
  cases hb : (p ++ x :: s).isPrefixOf p with
  | false => rfl
  | true =>
      exfalso
      rcases (isPrefixOf_eq_append _ _).mp hb with ⟨t, ht⟩
      have := congrArg List.length ht
      simp [List.length_append] at this

theorem diverge_not_anc (p : FsPath) (x y : String) (s s' : FsPath) (hxy : x ≠ y) :
    isStrictAncestor (p ++ x :: s) (p ++ y :: s') = false := by
  unfold isStrictAncestor
  cases hb : (p ++ x :: s).isPrefixOf (p ++ y :: s') with
  | false => rfl
  | true =>
      exfalso
      rcases (isPrefixOf_eq_append _ _).mp hb with ⟨t, ht⟩
      rw [List.append_assoc, List.cons_append] at ht
      have := List.append_cancel_left ht
      injection this with h1 _
      exact hxy h1

mutual
theorem walkDirs_extends (p : FsPath) (t : FSNode) :
    ∀ q ∈ walkDirs p t, ∃ s, q.1 = p ++ s := by
  match t with
  | .file sz => simp [walkDirs]
  | .dir r es =>
      intro q hq
      simp only [walkDirs, List.mem_cons] at hq
      rcases hq with rfl | hq
      · exact ⟨[], (List.append_nil p).symm⟩
      · split at hq
        · rcases walkEntries_extends p es q hq with ⟨f, _, s, hs⟩
          exact ⟨f.1 :: s, hs⟩
        · cases hq

theorem walkEntries_extends (p : FsPath) (es : List (String × FSNode)) :
    ∀ q ∈ walkEntries p es, ∃ f ∈ es, ∃ s, q.1 = p ++ f.1 :: s := by
  match es with
  | [] => simp [walkEntries]
  | e :: rest =>
      intro q hq
      simp only [walkEntries, List.mem_append] at hq
      rcases hq with hq | hq
      · rcases walkDirs_extends (p ++ [e.1]) e.2 q hq with ⟨s, hs⟩
        refine ⟨e, List.mem_cons_self e rest, s, ?_⟩
        rw [hs, List.append_assoc, List.singleton_append]
      · rcases walkEntries_extends p rest q hq with ⟨f, hf, s, hs⟩
        exact ⟨f, List.mem_cons_of_mem e hf, s, hs⟩
end

theorem namesNodup_cons {e : String × FSNode} {rest : List (String × FSNode)}
    (h : namesNodup (e :: rest) = true) :
    (∀ f ∈ rest, f.1 ≠ e.1) ∧ namesNodup rest = true := by
  unfold namesNodup at h
  simp only [Bool.and_eq_true, Bool.not_eq_true', List.any_eq_false, beq_eq_false_iff_ne,
    ne_eq] at h
  refine ⟨fun f hf => ?_, h.2⟩
  have := h.1 f hf
  simpa using this

theorem wf_dir_destruct {r : Bool} {es : List (String × FSNode)}
    (h : FSNode.wf (.dir r es) = true) :
    namesNodup es = true ∧ entriesWf es = true := by
  simpa only [FSNode.wf, Bool.and_eq_true] using h

theorem entriesWf_mem : ∀ (es : List (String × FSNode)), entriesWf es = true →
    ∀ e ∈ es, e.2.wf = true := by
  intro es
  induction es with
  | nil => intro _ e he; cases he
  | cons a rest ih =>
      intro h e he
      unfold entriesWf at h
      rw [Bool.and_eq_true] at h
      rcases h with ⟨h1, h2⟩
      rcases List.mem_cons.mp he with rfl | he
      · exact h1
      · exact ih h2 e he

mutual
theorem walkDirs_order (p : FsPath) (t : FSNode) (h : t.wf = true) :
    laterNotAnc (walkDirs p t) := by
  match t with
  | .file sz => exact List.Pairwise.nil
  | .dir r es =>
      rcases wf_dir_destruct h with ⟨hn, hw⟩
      refine List.pairwise_cons.mpr ⟨?_, ?_⟩
      · intro b hb
        split at hb
        · rcases walkEntries_extends p es b hb with ⟨f, _, s, hs⟩
          rw [hs]
          exact long_not_anc p f.1 s
        · cases hb
      · split
        · exact walkEntries_order p es hn hw
        · exact List.Pairwise.nil

theorem walkEntries_order (p : FsPath) (es : List (String × FSNode))
    (h1 : namesNodup es = true) (h2 : entriesWf es = true) :
    laterNotAnc (walkEntries p es) := by
  match es with
  | [] => exact List.Pairwise.nil
  | e :: rest =>
      rcases namesNodup_cons h1 with ⟨hne, hn'⟩
      unfold entriesWf at h2
      rw [Bool.and_eq_true] at h2
      rcases h2 with ⟨hwe, hw'⟩
      refine List.pairwise_append.mpr ⟨?_, ?_, ?_⟩
      · exact walkDirs_order (p ++ [e.1]) e.2 hwe
      · exact walkEntries_order p rest hn' hw'
      · intro a ha b hb
        rcases walkDirs_extends (p ++ [e.1]) e.2 a ha with ⟨s', hs'⟩
        rcases walkEntries_extends p rest b hb with ⟨f, hf, s, hs⟩
        rw [hs, hs', List.append_assoc, List.singleton_append]
        exact diverge_not_anc p f.1 e.1 s s' (hne f hf)
end

theorem scanGo_not_skipped (fs : FSNode) (enabled : List ProjectType) :
    ∀ (W : List (FsPath × FSNode)) (skips : List FsPath) (e : FoundDir),
      e ∈ scanGo fs enabled W skips → ∀ s ∈ skips, s.isPrefixOf e.path = false
  | [], _, e, he => absurd he (List.not_mem_nil e)
  | (p, node) :: rest, skips, e, he => by
      simp only [scanGo] at he
      split at he
      · exact scanGo_not_skipped fs enabled rest skips e he
      · rename_i hskip
        split at he
        · exact scanGo_not_skipped fs enabled rest skips e he
        · split at he
          · rcases List.mem_cons.mp he with rfl | htail
            · intro s hs
              simp only [List.any_eq_true, not_exists, not_and, Bool.not_eq_true] at hskip
              exact hskip s hs
            · intro s hs
              exact scanGo_not_skipped fs enabled rest (p :: skips) e htail s
                (List.mem_cons_of_mem p hs)
          · exact scanGo_not_skipped fs enabled rest skips e he

theorem scanGo_from_walk (fs : FSNode) (enabled : List ProjectType) :
    ∀ (W : List (FsPath × FSNode)) (skips : List FsPath) (e : FoundDir),
      e ∈ scanGo fs enabled W skips → ∃ n, (e.path, n) ∈ W
  | [], _, e, he => absurd he (List.not_mem_nil e)
  | (p, node) :: rest, skips, e, he => by
      simp only [scanGo] at he
      split at he
      · rcases scanGo_from_walk fs enabled rest skips e he with ⟨n, hn⟩
        exact ⟨n, List.mem_cons_of_mem _ hn⟩
      · split at he
        · rcases scanGo_from_walk fs enabled rest skips e he with ⟨n, hn⟩
          exact ⟨n, List.mem_cons_of_mem _ hn⟩
        · split at he
          · rcases List.mem_cons.mp he with rfl | htail
            · exact ⟨node, List.mem_cons_self _ _⟩
            · rcases scanGo_from_walk fs enabled rest (p :: skips) e htail with ⟨n, hn⟩
              exact ⟨n, List.mem_cons_of_mem _ hn⟩
          · rcases scanGo_from_walk fs enabled rest skips e he with ⟨n, hn⟩
            exact ⟨n, List.mem_cons_of_mem _ hn⟩

theorem scanGo_pairwise (fs : FSNode) (enabled : List ProjectType) :
    ∀ (W : List (FsPath × FSNode)) (skips : List FsPath), laterNotAnc W →
      (scanGo fs enabled W skips).Pairwise noAncPair
  | [], _, _ => List.Pairwise.nil
  | (p, node) :: rest, skips, hW => by
      have hWtail : laterNotAnc rest := (List.pairwise_cons.mp hW).2
      have hWhead := (List.pairwise_cons.mp hW).1
      simp only [scanGo]
      split
      · exact scanGo_pairwise fs enabled rest skips hWtail
      · split
        · exact scanGo_pairwise fs enabled rest skips hWtail
        · split
          · refine List.pairwise_cons.mpr
              ⟨?_, scanGo_pairwise fs enabled rest (p :: skips) hWtail⟩
            intro e he
            constructor
            · have hns := scanGo_not_skipped fs enabled rest (p :: skips) e he p
                (List.mem_cons_self p skips)
              show (p.isPrefixOf e.path && !(p == e.path)) = false
              rw [hns]
              rfl
            · rcases scanGo_from_walk fs enabled rest (p :: skips) e he with ⟨n, hmem⟩
              exact hWhead (e.path, n) hmem
          · exact scanGo_pairwise fs enabled rest skips hWtail

theorem wf_lookup : ∀ (q : FsPath) (t : FSNode), t.wf = true →
    ∀ u, t.lookup q = some u → u.wf = true
  | [], t, hw, u, hl => by
      cases t with
      | file s => exact (Option.some.inj hl) ▸ hw
      | dir r es =>
          cases r with
          | false => exact (Option.some.inj hl) ▸ hw
          | true => exact (Option.some.inj hl) ▸ hw
  | n :: q', t, hw, u, hl => by
      match t with
      | .file s => cases hl
      | .dir false es => cases hl
      | .dir true es =>
          have hl' : (match findEntry es n with
              | some v => v.lookup q'
              | none => none) = some u := hl
          cases hf : findEntry es n with
          | none => rw [hf] at hl'; cases hl'
          | some v =>
              rw [hf] at hl'
              rcases findEntry_some_mem n v es hf with ⟨e, he, _, hev⟩
              have hwf_es : entriesWf es = true := (wf_dir_destruct hw).2
              have hv : v.wf = true := hev ▸ entriesWf_mem es hwf_es e he
              exact wf_lookup q' v hv u hl'

/-- C1: for every well-formed root tree (sibling names distinct, as on
any real filesystem) and every enabled-category set, no two entries in
the sequence returned by `scan` have one path a strict ancestor (proper
path prefix) of the other: once a directory is accepted, nothing at or
under it is ever emitted. -/
theorem scan_pruning_invariant (fs : FSNode) (root : FsPath) (enabled : List ProjectType)
    (hwf : fs.wf = true) :
    (scan fs root enabled).Pairwise noAncPair := by
  have hsym : ∀ {a b : FoundDir}, noAncPair a b → noAncPair b a := fun h => ⟨h.2, h.1⟩
  have hperm := List.perm_insertionSort sizeGe (scanGo fs enabled (walk fs root) [])
  unfold scan
  rw [List.Perm.pairwise_iff hsym hperm]
  apply scanGo_pairwise
  unfold walk
  cases hl : fs.lookup root with
  | none => exact List.Pairwise.nil
  | some t => exact walkDirs_order root t (wf_lookup root fs hwf t hl)

/-- Witness for C1 on the §8 scenario tree: the tree is well-formed and
the two reported entries are prefix-incomparable. -/
theorem scan_pruning_invariant_witness :
    FSNode.wf fsScenario = true ∧
    (scan fsScenario [] ProjectType.all).Pairwise noAncPair :=
  ⟨by decide, scan_pruning_invariant fsScenario [] ProjectType.all (by decide)⟩

/-! ## C7: confirm returns the selected entries in category order -/

namespace Selector

theorem move_up_groups (s : GroupedSelector) : s.move_up.groups = s.groups := by
  unfold GroupedSelector.move_up
  split <;> rfl

theorem move_down_groups (s : GroupedSelector) : s.move_down.groups = s.groups := by
  unfold GroupedSelector.move_down
  split <;> rfl

theorem modifyAt_map_eq {α β : Type} (f : α → α) (m : α → β) (hm : ∀ x, m (f x) = m x) :
    ∀ (l : List α) (i : Nat), (modifyAt f l i).map m = l.map m
  | [], _ => rfl
  | x :: rest, 0 => by simp [modifyAt, hm]
  | x :: rest, i + 1 => by
      simp only [modifyAt, List.map_cons, modifyAt_map_eq f m hm rest i]

theorem modifyAt_length {α : Type} (f : α → α) :
    ∀ (l : List α) (i : Nat), (modifyAt f l i).length = l.length
  | [], _ => rfl
  | x :: rest, 0 => rfl
  | x :: rest, i + 1 => by simp [modifyAt, modifyAt_length f rest i]

theorem toggle_all_item_dirs (g : Group) :
    g.toggle_all.items.map (fun i => i.dir) = g.items.map (fun i => i.dir) := by
  rw [toggle_all_items_eq, List.map_map]
  rfl

theorem toggle_current_itemDirs (s : GroupedSelector) :
    itemDirs s.toggle_current.groups = itemDirs s.groups := by
  unfold GroupedSelector.toggle_current
  cases hcp : s.cursor_position with
  | groupHeader gi =>
      show (modifyAt Group.toggle_all s.groups gi).map (fun g => g.items.map (fun i => i.dir))
        = s.groups.map (fun g => g.items.map (fun i => i.dir))
      exact modifyAt_map_eq _ _ toggle_all_item_dirs s.groups gi
  | item gi ii =>
      show (modifyAt (fun g => { g with items := modifyAt GroupedItem.toggle g.items ii })
          s.groups gi).map (fun g => g.items.map (fun i => i.dir))
        = s.groups.map (fun g => g.items.map (fun i => i.dir))
      refine modifyAt_map_eq _ _ (fun g => ?_) s.groups gi
      show (modifyAt GroupedItem.toggle g.items ii).map (fun i => i.dir)
        = g.items.map (fun i => i.dir)
      exact modifyAt_map_eq GroupedItem.toggle (fun i => i.dir) (fun i => rfl) g.items ii

theorem toggle_collapse_itemDirs (s : GroupedSelector) :
    itemDirs s.toggle_collapse.groups = itemDirs s.groups := by
  unfold GroupedSelector.toggle_collapse
  cases hcp : s.cursor_position with
  | groupHeader gi =>
      show (modifyAt (fun g => { g with collapsed := !g.collapsed }) s.groups gi).map
          (fun g => g.items.map (fun i => i.dir))
        = s.groups.map (fun g => g.items.map (fun i => i.dir))
      exact modifyAt_map_eq (fun g => { g with collapsed := !g.collapsed })
        (fun g => g.items.map (fun i => i.dir)) (fun g => rfl) s.groups gi
  | item gi ii => rfl

theorem step_itemDirs (s : GroupedSelector) (k : Key) :
    itemDirs (s.step k).groups = itemDirs s.groups := by
  cases k with
  | arrowUp => rw [show (s.step .arrowUp).groups = s.move_up.groups from rfl, move_up_groups]
  | arrowDown =>
      rw [show (s.step .arrowDown).groups = s.move_down.groups from rfl, move_down_groups]
  | tab => exact toggle_collapse_itemDirs s
  | enter => rfl
  | escape => rfl
  | other => rfl
  | char c =>
      simp only [GroupedSelector.step]
      split <;>
        first
          | rfl
          | rw [move_up_groups]
          | rw [move_down_groups]
          | exact toggle_current_itemDirs s
          | exact toggle_collapse_itemDirs s

theorem applyKeys_itemDirs (ks : List Key) :
    ∀ s : GroupedSelector, itemDirs (applyKeys s ks).groups = itemDirs s.groups := by
  induction ks with
  | nil => intro s; rfl
  | cons k ks' ih =>
      intro s
      show itemDirs (applyKeys (s.step k) ks').groups = _
      rw [ih (s.step k), step_itemDirs]

theorem run_cons_step (s : GroupedSelector) (k : Key) (ks : List Key)
    (hk : endsSession k = false) : s.run (k :: ks) = (s.step k).run ks := by
  cases k with
  | enter => simp [endsSession] at hk
  | escape => simp [endsSession] at hk
  | arrowUp => rfl
  | arrowDown => rfl
  | tab => rfl
  | other => rfl
  | char c =>
      by_cases hc : c = 'q'
      · subst hc
        simp [endsSession] at hk
      · simp only [GroupedSelector.run]
        split
        · rename_i h; cases h
        · rename_i h; cases h
        · rename_i h
          injection h with h
          exact absurd h hc
        · rfl

theorem run_append (ks : List Key) (hks : ∀ k ∈ ks, endsSession k = false) :
    ∀ (s : GroupedSelector) (rest : List Key),
      s.run (ks ++ rest) = (applyKeys s ks).run rest := by
  induction ks with
  | nil => intro s rest; rfl
  | cons k ks' ih =>
      intro s rest
      have hk := hks k (List.mem_cons_self k ks')
      rw [List.cons_append, run_cons_step s k _ hk]
      exact ih (fun k' hk' => hks k' (List.mem_cons_of_mem _ hk')) (s.step k) rest

theorem new_items_selected (entries : List FoundDir) :
    ∀ i ∈ ((GroupedSelector.new entries).groups.map (fun g => g.items)).flatten,
      i.selected = true := by
  intro i hi
  rcases List.mem_flatten.mp hi with ⟨l, hl, hil⟩
  rcases List.mem_map.mp hl with ⟨g, hg, rfl⟩
  rcases List.mem_filterMap.mp hg with ⟨pt, _, hfm⟩
  split at hfm
  · cases hfm
  · rcases Option.some.inj hfm with rfl
    rcases List.mem_map.mp hil with ⟨d, _, rfl⟩
    rfl

theorem flatten_filterMap_if {α β : Type} (f : α → List β) :
    ∀ l : List α,
      ((l.filterMap (fun x => if (f x).isEmpty then none else some (f x))).flatten)
        = (l.map f).flatten
  | [] => rfl
  | x :: rest => by
      rw [List.filterMap_cons, List.map_cons, List.flatten_cons]
      by_cases hx : (f x).isEmpty
      · rw [if_pos hx, List.isEmpty_iff.mp hx, List.nil_append]
        exact flatten_filterMap_if f rest
      · rw [if_neg hx]
        show (f x :: List.filterMap _ rest).flatten = _
        rw [List.flatten_cons, flatten_filterMap_if f rest]

theorem itemDirs_flatten (groups : List Group) :
    ((groups.map (fun g => g.items)).flatten).map (fun i => i.dir)
      = (itemDirs groups).flatten := by
  rw [List.map_flatten, List.map_map]
  rfl

theorem itemDirs_new (entries : List FoundDir) :
    (itemDirs (GroupedSelector.new entries).groups).flatten = regroupByType entries := by
  unfold itemDirs GroupedSelector.new regroupByType
  rw [List.map_filterMap]
  have hcongr : ∀ pt ∈ ProjectType.all,
      (Option.map (fun g : Group => g.items.map (fun i => i.dir))
        (if (entries.filter (fun d => decide (d.project_type = pt))).isEmpty then none
          else some { project_type := pt,
                      items := (entries.filter (fun d => decide (d.project_type = pt))).map
                        (fun dir => { dir := dir, selected := true }),
                      collapsed := false }))
      = (if (entries.filter (fun d => decide (d.project_type = pt))).isEmpty then none
          else some (entries.filter (fun d => decide (d.project_type = pt)))) := by
    intro pt _
    by_cases h : (entries.filter (fun d => decide (d.project_type = pt))).isEmpty
    · rw [if_pos h, if_pos h]
      rfl
    · rw [if_neg h, if_neg h]
      have hmap : List.map (fun i : GroupedItem => i.dir)
          (List.map (fun dir => ({ dir := dir, selected := true } : GroupedItem))
            (entries.filter (fun d => decide (d.project_type = pt))))
          = entries.filter (fun d => decide (d.project_type = pt)) := by
        rw [List.map_map]
        exact List.map_id _
      exact congrArg some hmap
  rw [List.filterMap_congr hcongr]
  exact flatten_filterMap_if _ ProjectType.all

theorem selectedDirs_sublist (groups : List Group) :
    (selectedDirs groups).Sublist ((itemDirs groups).flatten) := by
  unfold selectedDirs
  have h1 := List.filter_sublist (p := fun i => i.selected)
    ((groups.map (fun g => g.items)).flatten)
  have h2 := h1.map (fun i => i.dir)
  rw [itemDirs_flatten] at h2
  exact h2

theorem selectedDirs_new (entries : List FoundDir) :
    selectedDirs (GroupedSelector.new entries).groups = regroupByType entries := by
  unfold selectedDirs
  rw [List.filter_eq_self.mpr (new_items_selected entries), itemDirs_flatten, itemDirs_new]

end Selector

namespace Selector

theorem count_pt_all (pt : ProjectType) : ProjectType.all.count pt = 1 := by
  cases pt <;> decide

theorem regroup_cons_perm (e : FoundDir) (rest : List FoundDir) :
    ∀ (pts : List ProjectType), pts.count e.project_type = 1 →
      ((pts.map (fun pt => (e :: rest).filter (fun d => decide (d.project_type = pt)))).flatten).Perm
        (e :: (pts.map (fun pt => rest.filter (fun d => decide (d.project_type = pt)))).flatten)
  | [], h => by simp at h
  | pt :: pts', h => by
      rw [List.count_cons] at h
      by_cases hpt : e.project_type = pt
      · have hpteq : (pt == e.project_type) = true := by simp [hpt]
        rw [hpteq, if_pos rfl] at h
        have hzero : pts'.count e.project_type = 0 := by omega
        have hnot : e.project_type ∉ pts' := List.count_eq_zero.mp hzero
        have hmap : pts'.map (fun pt' => (e :: rest).filter (fun d => decide (d.project_type = pt')))
            = pts'.map (fun pt' => rest.filter (fun d => decide (d.project_type = pt'))) := by
          apply List.map_congr_left
          intro pt' hpt'
          have hne : decide (e.project_type = pt') = false := by
            simp only [decide_eq_false_iff_not]
            intro heq
            exact hnot (heq ▸ hpt')
          rw [List.filter_cons, hne]
          simp
        rw [List.map_cons, List.map_cons, List.flatten_cons, List.flatten_cons, hmap,
          List.filter_cons]
        have hd : decide (e.project_type = pt) = true := by simp [hpt]
        rw [hd]
        simp only [if_pos, List.cons_append]
        exact List.Perm.refl _
      · have hptne : (pt == e.project_type) = false := by
          simp only [beq_eq_false_iff_ne, ne_eq]
          intro heq
          exact hpt heq.symm
        rw [hptne] at h
        simp only [if_neg Bool.false_ne_true] at h
        have h' : pts'.count e.project_type = 1 := by omega
        have hfc : (e :: rest).filter (fun d => decide (d.project_type = pt))
            = rest.filter (fun d => decide (d.project_type = pt)) := by
          rw [List.filter_cons]
          have hne : decide (e.project_type = pt) = false := by simp [hpt]
          rw [hne]
          simp
        rw [List.map_cons, List.map_cons, List.flatten_cons, List.flatten_cons, hfc]
        have hrec := regroup_cons_perm e rest pts' h'
        have h1 := List.Perm.append_left
          (rest.filter (fun d => decide (d.project_type = pt))) hrec
        exact h1.trans List.perm_middle

theorem regroup_perm (entries : List FoundDir) : (regroupByType entries).Perm entries := by
  induction entries with
  | nil =>
      have : regroupByType [] = [] := by decide
      rw [this]
  | cons e rest ih =>
      have h := regroup_cons_perm e rest ProjectType.all (count_pt_all e.project_type)
      exact h.trans (ih.cons e)

/-- C7: processing any sequence of non-terminating keys and then the
confirm key returns exactly the items whose selected flag is true in the
final state; that result is always a subsequence of the input regrouped
in the fixed category order (items within a category in original input
order); the regrouping is a permutation of the input; and confirming
after zero key presses returns the full regrouped input — every supplied
entry. -/
theorem run_confirm_spec (entries : List FoundDir) (ks : List Key)
    (_hne : entries ≠ [])
    (hks : ∀ k ∈ ks, endsSession k = false) :
    (GroupedSelector.new entries).run (ks ++ [Key.enter])
        = some (selectedDirs (applyKeys (GroupedSelector.new entries) ks).groups) ∧
    (selectedDirs (applyKeys (GroupedSelector.new entries) ks).groups).Sublist
      (regroupByType entries) ∧
    (regroupByType entries).Perm entries ∧
    (GroupedSelector.new entries).run [Key.enter] = some (regroupByType entries) := by
  refine ⟨?_, ?_, regroup_perm entries, ?_⟩
  · rw [run_append ks hks]
    rfl
  · have h1 := selectedDirs_sublist (applyKeys (GroupedSelector.new entries) ks).groups
    rwa [applyKeys_itemDirs, itemDirs_new] at h1
  · show some (selectedDirs (GroupedSelector.new entries).groups) = _
    rw [selectedDirs_new]

/-- Witness for C7: with the concrete three-entry input and one ignored
key press, confirming returns the regrouped entries. -/
theorem run_confirm_spec_witness :
    exEntries ≠ [] ∧
    (GroupedSelector.new exEntries).run ([Key.other] ++ [Key.enter])
      = some (selectedDirs (applyKeys (GroupedSelector.new exEntries) [Key.other]).groups) ∧
    (GroupedSelector.new exEntries).run [Key.enter] = some (regroupByType exEntries) :=
  ⟨by decide,
    (run_confirm_spec exEntries [Key.other] (by decide) (by decide)).1,
    (run_confirm_spec exEntries [Key.other] (by decide) (by decide)).2.2.2⟩

end Selector

/-! ## C9: the cursor invariant -/

namespace Selector

theorem groupLines_pos (g : Group) : 1 ≤ groupLines g := by
  unfold groupLines
  split <;> omega

theorem groupLines_toggle_all (g : Group) : groupLines g.toggle_all = groupLines g := by
  unfold groupLines Group.toggle_all
  simp [List.length_map]

theorem groupLines_modify_items (g : Group) (ii : Nat) :
    groupLines { g with items := modifyAt GroupedItem.toggle g.items ii } = groupLines g := by
  unfold groupLines
  simp [modifyAt_length]

theorem inv_of_groups_modify (s : GroupedSelector) (f : Group → Group)
    (hf : ∀ g, groupLines (f g) = groupLines g) (gi : Nat) (h : cursorInv s) :
    cursorInv { s with groups := modifyAt f s.groups gi } := by
  show s.cursor < ((modifyAt f s.groups gi).map groupLines).sum
  rw [modifyAt_map_eq f groupLines hf s.groups gi]
  exact h

theorem itemScan_none :
    ∀ (n cursor line : Nat), itemScan cursor line n = none → cursor < line ∨ line + n ≤ cursor
  | 0, cursor, line => fun _ => Nat.lt_or_ge cursor line
  | n + 1, cursor, line => by
      intro h
      simp only [itemScan] at h
      split at h
      · cases h
      · rename_i hne
        have h' : itemScan cursor (line + 1) n = none := by
          cases hi : itemScan cursor (line + 1) n with
          | none => rfl
          | some ii => rw [hi] at h; cases h
        rcases itemScan_none n cursor (line + 1) h' with h1 | h1
        · left; omega
        · right; omega

theorem cpGo_header_sound :
    ∀ (groups : List Group) (cursor gi line gj : Nat),
      line ≤ cursor → cursor < line + (groups.map groupLines).sum →
      cpGo cursor gi line groups = .groupHeader gj →
      ∃ k, k < groups.length ∧ gj = gi + k ∧
        cursor = line + ((groups.take k).map groupLines).sum
  | [], cursor, gi, line, gj => by
      intro h1 h2 _
      simp at h2
      omega
  | g :: rest, cursor, gi, line, gj => by
      intro h1 h2 hcp
      simp only [cpGo] at hcp
      split at hcp
      · rename_i hl
        injection hcp with hgj
        refine ⟨0, by simp, by omega, ?_⟩
        simp
        omega
      · rename_i hl
        split at hcp
        · rename_i hcol
          have hg1 : groupLines g = 1 := by simp [groupLines, hcol]
          have hb1 : line + 1 ≤ cursor := by omega
          have hb2 : cursor < (line + 1) + (rest.map groupLines).sum := by
            rw [List.map_cons, List.sum_cons, hg1] at h2
            omega
          rcases cpGo_header_sound rest cursor (gi + 1) (line + 1) gj hb1 hb2 hcp
            with ⟨k, hk, hgj, hc⟩
          refine ⟨k + 1, by simpa using Nat.succ_lt_succ hk, by omega, ?_⟩
          rw [List.take_succ_cons, List.map_cons, List.sum_cons, hg1]
          omega
        · rename_i hcol
          split at hcp
          · cases hcp
          · rename_i hscan
            have hg1 : groupLines g = 1 + g.items.length := by simp [groupLines, hcol]
            have hisn := itemScan_none g.items.length cursor (line + 1) hscan
            have hb1 : line + 1 + g.items.length ≤ cursor := by
              rcases hisn with hx | hx <;> omega
            have hb2 : cursor < (line + 1 + g.items.length) + (rest.map groupLines).sum := by
              rw [List.map_cons, List.sum_cons, hg1] at h2
              omega
            rcases cpGo_header_sound rest cursor (gi + 1) (line + 1 + g.items.length) gj
              hb1 hb2 hcp with ⟨k, hk, hgj, hc⟩
            refine ⟨k + 1, by simpa using Nat.succ_lt_succ hk, by omega, ?_⟩
            rw [List.take_succ_cons, List.map_cons, List.sum_cons, hg1]
            omega

theorem modifyAt_sum_lower {α : Type} (f : α → α) (m : α → Nat) (hm : ∀ x, 1 ≤ m (f x)) :
    ∀ (l : List α) (k : Nat), k < l.length →
      ((l.take k).map m).sum + 1 ≤ ((modifyAt f l k).map m).sum
  | [], k, hk => by simp at hk
  | x :: rest, 0, _ => by
      simp only [List.take_zero, List.map_nil, List.sum_nil, modifyAt, List.map_cons,
        List.sum_cons]
      have := hm x
      omega
  | x :: rest, k + 1, hk => by
      simp only [List.take_succ_cons, modifyAt, List.map_cons, List.sum_cons]
      have := modifyAt_sum_lower f m hm rest k (by simpa using Nat.lt_of_succ_lt_succ hk)
      omega

theorem mem_type_all (pt : ProjectType) : pt ∈ ProjectType.all := by
  cases pt <;> simp [ProjectType.all]

theorem new_inv (entries : List FoundDir) (hne : entries ≠ []) :
    cursorInv (GroupedSelector.new entries) := by
  obtain ⟨e, he⟩ : ∃ e, e ∈ entries := by
    cases entries with
    | nil => exact absurd rfl hne
    | cons a rest => exact ⟨a, List.mem_cons_self a rest⟩
  have hgne : (GroupedSelector.new entries).groups ≠ [] := by
    intro hg
    have hall := List.filterMap_eq_nil_iff.mp hg e.project_type (mem_type_all e.project_type)
    split at hall
    · rename_i hemp
      have : e ∈ entries.filter (fun d => decide (d.project_type = e.project_type)) :=
        List.mem_filter.mpr ⟨he, by simp⟩
      rw [List.isEmpty_iff.mp hemp] at this
      cases this
    · cases hall
  show (GroupedSelector.new entries).cursor < (GroupedSelector.new entries).total_lines
  cases hg : (GroupedSelector.new entries).groups with
  | nil => exact absurd hg hgne
  | cons g rest =>
      have hcur : (GroupedSelector.new entries).cursor = 0 := rfl
      have := groupLines_pos g
      rw [hcur]
      show 0 < ((GroupedSelector.new entries).groups.map groupLines).sum
      rw [hg, List.map_cons, List.sum_cons]
      omega

theorem move_up_inv (s : GroupedSelector) (h : cursorInv s) : cursorInv s.move_up := by
  have h' : s.cursor < s.total_lines := h
  unfold GroupedSelector.move_up
  split
  · show s.cursor - 1 < s.total_lines
    omega
  · exact h

theorem move_down_inv (s : GroupedSelector) (h : cursorInv s) : cursorInv s.move_down := by
  unfold GroupedSelector.move_down
  split
  · rename_i hlt
    exact hlt
  · exact h

theorem toggle_current_inv (s : GroupedSelector) (h : cursorInv s) :
    cursorInv s.toggle_current := by
  unfold GroupedSelector.toggle_current
  cases hcp : s.cursor_position with
  | groupHeader gi => exact inv_of_groups_modify s _ groupLines_toggle_all gi h
  | item gi ii =>
      exact inv_of_groups_modify s _ (fun g => groupLines_modify_items g ii) gi h

theorem toggle_collapse_inv (s : GroupedSelector) (h : cursorInv s) :
    cursorInv s.toggle_collapse := by
  unfold GroupedSelector.toggle_collapse
  cases hcp : s.cursor_position with
  | item gi ii => exact h
  | groupHeader gj =>
      rcases cpGo_header_sound s.groups s.cursor 0 0 gj (Nat.zero_le _) (by simpa using h) hcp
        with ⟨k, hk, hgj, hc⟩
      have hlow := modifyAt_sum_lower (fun g => { g with collapsed := !g.collapsed })
        groupLines (fun g => groupLines_pos _) s.groups k hk
      show s.cursor
        < ((modifyAt (fun g => { g with collapsed := !g.collapsed }) s.groups gj).map
            groupLines).sum
      have hgj' : gj = k := by omega
      rw [hgj']
      omega

theorem step_inv (s : GroupedSelector) (k : Key) (h : cursorInv s) : cursorInv (s.step k) := by
  cases k with
  | arrowUp => exact move_up_inv s h
  | arrowDown => exact move_down_inv s h
  | tab => exact toggle_collapse_inv s h
  | enter => exact h
  | escape => exact h
  | other => exact h
  | char c =>
      simp only [GroupedSelector.step]
      split <;>
        first
          | exact move_up_inv s h
          | exact move_down_inv s h
          | exact toggle_current_inv s h
          | exact toggle_collapse_inv s h
          | exact h

/-- C9: for every selector built from a non-empty entry sequence the
cursor lies in `[0, totalLines)` initially, and every key operation (the
moves, toggle selection, toggle collapse — all of `step`) preserves that
invariant, where `total_lines` counts one line per group header plus one
per item of each expanded group. -/
theorem cursor_invariant (entries : List FoundDir) (s : GroupedSelector) (k : Key) :
    (entries ≠ [] → cursorInv (GroupedSelector.new entries)) ∧
    (cursorInv s → cursorInv (s.step k)) :=
  ⟨new_inv entries, step_inv s k⟩

/-- Witness for C9: the concrete three-entry selector satisfies the
invariant initially and after a collapse of the group under the cursor. -/
theorem cursor_invariant_witness :
    cursorInv (GroupedSelector.new exEntries) ∧
    cursorInv ((GroupedSelector.new exEntries).step Key.tab) :=
  have h0 : cursorInv (GroupedSelector.new exEntries) :=
    (cursor_invariant exEntries (GroupedSelector.new exEntries) Key.tab).1 (by decide)
  ⟨h0, (cursor_invariant exEntries (GroupedSelector.new exEntries) Key.tab).2 h0⟩

end Selector
